import Mathlib

/-!
Verification of the chunking and retrieval-ranking pipeline of the PDF
question-answering service.  The Lean definitions below are shallow embeddings
of the Python functions in `backend/pdf/utils.py`, `backend/pdf/processor.py`
and `backend/query/routes.py`; Python strings are Lean `String`s (`len` counts
code points, as in Python), Python floats carrying similarity scores are
modelled as rationals `ℚ`, and Python's built-in string `hash` used for content
fingerprints is modelled by the fingerprinted text itself (equality of hashes
coincides with equality of the hashed strings in this model).
-/

/-! ## Python string primitives -/

/-- Python's `\s` character class (and the `str.split()` / `str.strip()`
whitespace set), restricted to its ASCII members. -/
def isPyWS (c : Char) : Bool :=
  c = ' ' || c = '\t' || c = '\n' || c = '\r' || c = '\x0b' || c = '\x0c'

/-- Python `str.strip()`: remove leading and trailing whitespace. -/
def pyStrip (s : String) : String :=
  String.mk (((s.data.dropWhile isPyWS).reverse.dropWhile isPyWS).reverse)

/-- Accumulator loop for `pyWords`; `cur` holds the current word reversed. -/
def pyWordsAux : List Char → List Char → List String
  | [], cur => if cur = [] then [] else [String.mk cur.reverse]
  | c :: rest, cur =>
    if isPyWS c then
      if cur = [] then pyWordsAux rest []
      else String.mk cur.reverse :: pyWordsAux rest []
    else pyWordsAux rest (c :: cur)

/-- Python `str.split()` with no argument: split on whitespace runs,
discarding empty pieces. -/
def pyWords (s : String) : List String :=
  pyWordsAux s.data []

/-- Python `sep.join(parts)`. -/
def joinSep (sep : String) : List String → String
  | [] => ""
  | [s] => s
  | s :: rest => s ++ sep ++ joinSep sep rest

/-- Split on a single separator character, keeping empty pieces
(Python `str.split(c)`). -/
def splitCharAux (sep : Char) : List Char → List Char → List (List Char)
  | [], cur => [cur.reverse]
  | c :: rest, cur =>
    if c = sep then cur.reverse :: splitCharAux sep rest []
    else splitCharAux sep rest (c :: cur)

/-- Python `s.split(sep)` for a one-character separator. -/
def pySplitChar (sep : Char) (s : String) : List String :=
  (splitCharAux sep s.data []).map fun cs => String.mk cs

/-- Split on the two-character separator `"\n\n"`, keeping empty pieces
(Python `text.split('\n\n')`, leftmost non-overlapping matches). -/
def paraSplitAux : List Char → List Char → List (List Char)
  | [], cur => [cur.reverse]
  | '\n' :: '\n' :: rest, cur => cur.reverse :: paraSplitAux rest []
  | c :: rest, cur => paraSplitAux rest (c :: cur)

/-- Python `text.split('\n\n')`. -/
def pyParagraphs (s : String) : List String :=
  (paraSplitAux s.data []).map fun cs => String.mk cs

/-- End-of-sentence test for the lookbehind `(?<=[.!?])` of the sentence
splitting regex: is the most recently read character `.`, `!` or `?`. -/
def headIsSentEnd : Option Char → Bool
  | some p => p = '.' || p = '!' || p = '?'
  | none => false

/-- Scanner for `re.split(r'(?<=[.!?])\s+', text)`: `cur` is the current piece
reversed, `skip` records that we are inside the separating whitespace run. -/
def sentSplitAux : List Char → List Char → Bool → List (List Char)
  | [], cur, _ => [cur.reverse]
  | c :: rest, cur, skip =>
    if skip then
      if isPyWS c then sentSplitAux rest cur true
      else sentSplitAux rest [c] false
    else if isPyWS c && headIsSentEnd cur.head? then
      cur.reverse :: sentSplitAux rest [] true
    else sentSplitAux rest (c :: cur) false

/-- Python `re.split(r'(?<=[.!?])\s+', text)`: split after sentence-ending
punctuation followed by whitespace, consuming the whitespace run. -/
def pySentences (s : String) : List String :=
  (sentSplitAux s.data [] false).map fun cs => String.mk cs

/-- Python `s[:n]`: the first `n` characters. -/
def pyTake (n : Nat) (s : String) : String :=
  String.mk (s.data.take n)

/-- Python `str.lower()` (ASCII range). -/
def pyLower (s : String) : String :=
  String.mk (s.data.map Char.toLower)

/-- Python `str.isdigit()` (ASCII range): non-empty and all digits. -/
def pyIsDigitStr (s : String) : Bool :=
  !s.data.isEmpty && s.data.all Char.isDigit

/-! ## The page-level chunker `split_text_into_chunks` (pdf/utils.py, 34-68) -/

/-- Backward walk of utils.py lines 51-57: starting from the flushed chunk's
last sentence, prepend sentences and stop as soon as the accumulated length
reaches the overlap budget.  `l` is the reversed sentence list of the chunk. -/
def overlapSentGo (overlap : Nat) : List String → Nat → List String → List String
  | [], _, acc => acc
  | s :: rest, size, acc =>
    let size1 := size + s.length
    let acc1 := s :: acc
    if overlap ≤ size1 then acc1 else overlapSentGo overlap rest size1 acc1

/-- The `overlap_sentences` list seeded after a flush (utils.py lines 51-59). -/
def overlap_sentences (overlap : Nat) (cur : List String) : List String :=
  overlapSentGo overlap cur.reverse 0 []

/-- Main loop of `split_text_into_chunks` (utils.py lines 44-66): state is the
remaining sentences, the accumulating sentence list `cur`, its tracked size
(sum of sentence lengths, separators not counted) and the flushed chunks. -/
def splitChunksGo (chunkSize overlap : Nat) :
    List String → List String → Nat → List String → List String
  | [], cur, _, chunks =>
    if cur = [] then chunks else chunks ++ [joinSep " " cur]
  | s :: rest, cur, size, chunks =>
    if chunkSize < size + s.length ∧ cur ≠ [] then
      let chunks1 := chunks ++ [joinSep " " cur]
      let cur1 := overlap_sentences overlap cur
      splitChunksGo chunkSize overlap rest (cur1 ++ [s])
        ((cur1.map String.length).sum + s.length) chunks1
    else
      splitChunksGo chunkSize overlap rest (cur ++ [s]) (size + s.length) chunks

/-- `split_text_into_chunks(text, chunk_size, overlap)` of pdf/utils.py. -/
def split_text_into_chunks (text : String) (chunkSize overlap : Nat) : List String :=
  if text = "" then []
  else splitChunksGo chunkSize overlap (pySentences text) [] 0 []

/-! ## The section-level chunker `PDFProcessor._split_text_into_chunks`
(pdf/processor.py, 238-304) -/

/-- Sentence-packing inner loop of processor.py lines 266-272: pack sentences
of an oversized paragraph greedily, counting one joining space per sentence. -/
def sentencePack (chunkSize : Nat) :
    List String → List String × String → List String × String
  | [], st => st
  | s :: rest, (chunks, cur) =>
    if cur.length + s.length + 1 ≤ chunkSize then
      sentencePack chunkSize rest (chunks, cur ++ s ++ " ")
    else
      sentencePack chunkSize rest
        (if cur = "" then chunks else chunks ++ [pyStrip cur], s ++ " ")

/-- Backward overlap accumulation of processor.py lines 289-294: prepend a
sentence (plus one separating space) only while the text so far still fits
within the overlap budget. -/
def overlapTextGo (budget : Nat) : List String → String → String
  | [], acc => acc
  | s :: rest, acc =>
    if acc.length + s.length ≤ budget then overlapTextGo budget rest (s ++ " " ++ acc)
    else acc

/-- The `overlap_text` string seeded into a fresh accumulator at a
paragraph-driven chunk boundary (processor.py lines 289-294). -/
def overlap_text (budget : Nat) (sentences : List String) : String :=
  overlapTextGo budget sentences.reverse ""

/-- One paragraph iteration of processor.py lines 251-298.  State is
(flushed chunks, current accumulator). -/
def paraStep (chunkSize chunkOverlap : Nat) (st : List String × String)
    (para0 : String) : List String × String :=
  let para := pyStrip para0
  if para = "" then st
  else if chunkSize < para.length then
    let st1 := if st.2 = "" then (st.1, "") else (st.1 ++ [st.2], "")
    sentencePack chunkSize (pySentences para) st1
  else if st.2.length + para.length + 2 ≤ chunkSize then
    (st.1, st.2 ++ para ++ "\n\n")
  else
    let chunks := if st.2 = "" then st.1 else st.1 ++ [pyStrip st.2]
    match chunks.getLast? with
    | some last =>
      if 0 < chunkOverlap then
        (chunks, overlap_text chunkOverlap (pySentences last) ++ para ++ "\n\n")
      else (chunks, para ++ "\n\n")
    | none => (chunks, para ++ "\n\n")

/-- `PDFProcessor._split_text_into_chunks` (processor.py lines 238-304) with
the processor's `chunk_size`, `chunk_overlap` and `min_chunk_length`. -/
def processor_split_text_into_chunks (chunkSize chunkOverlap minChunkLength : Nat)
    (text : String) : List String :=
  if text = "" ∨ text.length ≤ chunkSize then
    if minChunkLength < text.length then [text] else []
  else
    let st := (pyParagraphs text).foldl (paraStep chunkSize chunkOverlap) ([], "")
    if st.2 ≠ "" ∧ minChunkLength < st.2.length then st.1 ++ [pyStrip st.2]
    else st.1

/-! ## Text cleaning `clean_text` (pdf/utils.py, 8-32) -/

/-- The ligature/typography substitution table of utils.py line 13, applied
character-wise (each pattern is a single character and no replacement text
contains another pattern, so the sequential `str.replace` calls coincide with
this one-pass expansion). -/
def ligSub (c : Char) : List Char :=
  if c = 'ﬁ' then ['f', 'i']
  else if c = 'ﬂ' then ['f', 'l']
  else if c = '™' then [Char.ofNat 39] -- the apostrophe character
  else if c = 'œ' then [Char.ofNat 34] -- the double-quote character
  else [c]

/-- All four `str.replace` substitutions of utils.py line 13. -/
def applyLigSubs (s : String) : String :=
  String.mk (s.data.map ligSub).flatten

/-- The per-line keep/drop decision of `clean_text` (utils.py lines 18-30),
folded over the lines in order. -/
def cleanLineStep (pageNum : Option Nat) (acc : List String) (line : String) :
    List String :=
  let l := pyStrip line
  if l = "" then acc
  else if pageNum = some 1 then acc ++ [l]
  else if pyIsDigitStr l || decide (l.length < 5) || !(l.data.any Char.isAlphanum)
  then acc
  else acc ++ [l]

/-- `clean_text(text, page_num)` of pdf/utils.py lines 8-32: first
`' '.join(text.split())`, then the ligature substitutions, then the per-line
filter over `text.split('\n')`, then `' '.join` of the kept lines. -/
def clean_text (text : String) (pageNum : Option Nat) : String :=
  if text = "" then ""
  else
    let t1 := joinSep " " (pyWords text)
    let t2 := applyLigSubs t1
    let lines := pySplitChar '\n' t2
    joinSep " " (lines.foldl (cleanLineStep pageNum) [])

/-! ## Retrieval documents and scores (query/routes.py) -/

/-- A retrieved langchain document as used in query/routes.py: its text plus
the metadata fields the routes read (`filename`, `page`, `pdf_id`), each
optional exactly as `metadata.get` is.  `pageLabel` is the string rendering the
f-strings produce for the page value. -/
structure PyDoc where
  pageContent : String
  filename : Option String
  pageLabel : Option String
  pdfId : Option Nat
deriving DecidableEq

/-- Ordering of candidate pairs by their (second component) score. -/
def byScore (a b : PyDoc × ℚ) : Prop := a.2 ≤ b.2

instance : DecidableRel byScore := fun a b => inferInstanceAs (Decidable (a.2 ≤ b.2))

/-! ## Keyword re-ranking `rerank_results` (query/routes.py, 36-52) -/

/-- The keyword-overlap fraction of routes.py lines 39-44:
`len(query_words & content_words) / len(query_words)` where both sides are the
Python sets of lowercased whitespace-split words. -/
def keyword_overlap (query content : String) : ℚ :=
  let qw := (pyWords (pyLower query)).dedup
  let cw := pyWords (pyLower content)
  ((qw.filter fun w => w ∈ cw).length : ℚ) / (qw.length : ℚ)

/-- The combined score of routes.py line 47:
`(score * 0.7) + (keyword_overlap * 0.3)`. -/
def combined_score (query : String) (doc : PyDoc) (score : ℚ) : ℚ :=
  score * (7 / 10) + keyword_overlap query doc.pageContent * (3 / 10)

/-- `rerank_results(query, results)` of routes.py lines 36-52: replace each
score by the combined score and stable-sort ascending by it (Python's
`list.sort` is stable; so is `List.insertionSort`). -/
def rerank_results (query : String) (results : List (PyDoc × ℚ)) :
    List (PyDoc × ℚ) :=
  List.insertionSort byScore
    (results.map fun dq => (dq.1, combined_score query dq.1 dq.2))

/-! ## Context assembly `prepare_context` (query/routes.py, 54-81) -/

/-- The source-tagged block built for one document (routes.py lines 69-72):
`f"[Source: {filename}, Page {page}]\n{page_content}\n"` with the
`metadata.get` defaults. -/
def blockOf (d : PyDoc) : String :=
  "[Source: " ++ d.filename.getD "Unknown" ++ ", Page " ++ d.pageLabel.getD "N/A"
    ++ "]\n" ++ d.pageContent ++ "\n"

/-- Loop of routes.py lines 60-79: `seen` holds the first-100-character
fingerprints already included (Python's `hash` modelled by the prefix itself),
`parts` the included blocks, `curLen` the sum of their lengths.  A duplicate
fingerprint is skipped; a block that would push `curLen` past `maxLen` stops
the loop. -/
def prepareContextGo (maxLen : Nat) :
    List (PyDoc × ℚ) → List String → List String → Nat → List String
  | [], _, parts, _ => parts
  | (d, _) :: rest, seen, parts, curLen =>
    let fp := pyTake 100 d.pageContent
    if fp ∈ seen then prepareContextGo maxLen rest seen parts curLen
    else
      let block := blockOf d
      if maxLen < curLen + block.length then parts
      else prepareContextGo maxLen rest (fp :: seen) (parts ++ [block])
        (curLen + block.length)

/-- `prepare_context(results, max_length)` of routes.py lines 54-81. -/
def prepare_context (results : List (PyDoc × ℚ)) (maxLen : Nat) : String :=
  joinSep "\n---\n" (prepareContextGo maxLen results [] [] 0)

/-! ## Threshold filter and fallback of `query_pdfs` (query/routes.py, 183-191) -/

/-- The similarity-threshold filtering step of routes.py lines 183-191: keep
candidates with `score <= cutoff` (the code passes
`cutoff = 1 - SIMILARITY_THRESHOLD`); if that discards everything, fall back
to `results[:3]`, the first three candidates in retrieval order. -/
def threshold_rank (results : List (PyDoc × ℚ)) (cutoff : ℚ) :
    List (PyDoc × ℚ) :=
  let filtered := results.filter fun dq => decide (dq.2 ≤ cutoff)
  if filtered = [] then results.take 3 else filtered

/-! ## Primary/fallback search of `query_pdfs` (query/routes.py, 135-171) -/

/-- Outcome of the retrieval phase: either a candidate list handed onward, or
the structured degraded response returned when both searches fail. -/
inductive SearchOutcome where
  | results (rs : List (PyDoc × ℚ))
  | unableToSearch (answer : String)
deriving DecidableEq

/-- The answer text of the degraded response built at routes.py lines 166-171. -/
def unableAnswer : String :=
  "Unable to search the documents. The vector database may need to be rebuilt. Please try again later or contact support."

/-- The in-process access filter of routes.py lines 162-163:
`doc.metadata.get('pdf_id') in accessible_pdf_ids` (a missing `pdf_id` is
`None`, which is never in the list). -/
def accessFilter (accessible : List Nat) (dq : PyDoc × ℚ) : Bool :=
  match dq.1.pdfId with
  | some i => decide (i ∈ accessible)
  | none => false

/-- The try/except ladder of routes.py lines 135-171, with the two vector
searches abstracted as black boxes that either return a candidate list or
raise (`Except.error`): a failed primary search falls back to the unfiltered
search filtered in-process; a failed fallback yields the structured
`unableAnswer` response instead of an exception. -/
def retrieval_phase (primary fallb : Except String (List (PyDoc × ℚ)))
    (accessible : List Nat) : SearchOutcome :=
  match primary with
  | .ok rs => .results rs
  | .error _ =>
    match fallb with
    | .ok rs => .results (rs.filter (accessFilter accessible))
    | .error _ => .unableToSearch unableAnswer

/-! ## Multi-strategy dedup and ranking of `advanced_query`
(query/routes.py, 353-361) -/

/-- The content fingerprint of routes.py line 356:
`hash(doc.page_content[:200])`, with Python's string hash modelled by the
200-character prefix itself. -/
def fingerprint (d : PyDoc) : String := pyTake 200 d.pageContent

/-- One `unique_results[content_key] = (doc, score)` dict update of routes.py
lines 356-358: insert at the end when the key is new, replace in place (dict
update keeps insertion position) when the new score is strictly lower. -/
def upsertMin (k : String) (v : PyDoc × ℚ) :
    List (String × (PyDoc × ℚ)) → List (String × (PyDoc × ℚ))
  | [] => [(k, v)]
  | (k', v') :: rest =>
    if k = k' then (if v.2 < v'.2 then (k, v) :: rest else (k', v') :: rest)
    else (k', v') :: upsertMin k v rest

/-- The `unique_results` insertion-ordered dict after the dedup loop of
routes.py lines 354-358, as an association list keyed by fingerprint. -/
def dedupPool (pool : List (PyDoc × ℚ)) : List (String × (PyDoc × ℚ)) :=
  pool.foldl (fun m ds => upsertMin (fingerprint ds.1) ds m) []

/-- `RETRIEVAL_K` of config.py. -/
def RETRIEVAL_K : Nat := 8

/-- The dedup-and-rank step of `advanced_query` (routes.py lines 353-361):
`sorted(unique_results.values(), key=lambda x: x[1])[:RETRIEVAL_K]`. -/
def advanced_rank (pool : List (PyDoc × ℚ)) : List (PyDoc × ℚ) :=
  (List.insertionSort byScore ((dedupPool pool).map Prod.snd)).take RETRIEVAL_K

/-! ## Chunk persistence of `process_pdf` (pdf/processor.py, 339-357) -/

/-- A chunk record as produced by `extract_text_from_pdf`: the fields
`process_pdf` reads when building its insert batch. -/
structure ChunkRec where
  content : String
  page : Nat
  metadata : String
deriving DecidableEq

/-- A row of the `pdf_chunks` insert batch (processor.py lines 345-351). -/
structure ChunkRow where
  pdfId : Nat
  chunkIndex : Nat
  content : String
  pageNumber : Nat
  metadata : String
deriving DecidableEq

/-- The content clamp of processor.py line 343:
`chunk['content'][:5000] if len(chunk['content']) > 5000 else chunk['content']`. -/
def storedContent (s : String) : String :=
  if 5000 < s.length then pyTake 5000 s else s

/-- The batch built by the loop of processor.py lines 340-351 (`enumerate`
supplies the chunk index). -/
def chunk_rows (pdfId : Nat) (textChunks : List ChunkRec) : List ChunkRow :=
  textChunks.enum.map fun ic =>
    ⟨pdfId, ic.1, storedContent ic.2.content, ic.2.page, ic.2.metadata⟩

/-! ## Example documents used in concrete evaluations -/

/-- A document carrying only text, as enough of the candidates only use
`page_content`. -/
def mkDoc (s : String) : PyDoc := ⟨s, none, none, none⟩

/-- Candidate pool for the threshold-fallback evaluation: four candidates in
non-ascending retrieval order, with scores 4, 3, 2, 1. -/
def c4pool : List (PyDoc × ℚ) :=
  [(mkDoc "p1", 4), (mkDoc "p2", 3), (mkDoc "p3", 2), (mkDoc "p4", 1)]

/-- Helper turning the two list computations inside `keyword_overlap` into
explicit numerators and denominators. -/
lemma keyword_overlap_eval (q c : String) (m n : Nat)
    (h1 : ((pyWords (pyLower q)).dedup.filter fun w => w ∈ pyWords (pyLower c)).length = m)
    (h2 : (pyWords (pyLower q)).dedup.length = n) :
    keyword_overlap q c = (m : ℚ) / (n : ℚ) := by
  simp only [keyword_overlap, h1, h2]

/-! ## Claim C2 -/

/-- Candidate whose text contains the query word. -/
def docApple : PyDoc := mkDoc "apple pie"

/-- Candidate whose text shares no word with the query. -/
def docOrange : PyDoc := mkDoc "orange zest"

/-- C2: the code computes `combined = 0.7*score + 0.3*keyword_overlap`, not
`0.7*score + 0.3*(1 - keyword_overlap)`.  At query "apple" with two candidates
of equal similarity 2/5, the candidate containing the query word (overlap 1)
receives the larger combined score 29/50 and is ranked last, while the
candidate sharing no word (overlap 0) receives 14/50 and is ranked first —
the opposite of the specified blend, which would rank the matching candidate
first. -/
theorem C2_rerank_eval :
    keyword_overlap "apple" docApple.pageContent = 1 ∧
    keyword_overlap "apple" docOrange.pageContent = 0 ∧
    rerank_results "apple" [(docApple, 2/5), (docOrange, 2/5)] =
      [(docOrange, 14/50), (docApple, 29/50)] := by
  have hA : combined_score "apple" docApple (2/5) = 29/50 := by
    rw [combined_score,
      keyword_overlap_eval "apple" docApple.pageContent 1 1 (by decide) (by decide)]
    norm_num
  have hB : combined_score "apple" docOrange (2/5) = 14/50 := by
    rw [combined_score,
      keyword_overlap_eval "apple" docOrange.pageContent 0 1 (by decide) (by decide)]
    norm_num
  refine ⟨?_, ?_, ?_⟩
  · rw [keyword_overlap_eval "apple" docApple.pageContent 1 1 (by decide) (by decide)]
    norm_num
  · rw [keyword_overlap_eval "apple" docOrange.pageContent 0 1 (by decide) (by decide)]
    norm_num
  · rw [rerank_results]
    simp only [List.map, hA, hB]
    rw [List.insertionSort, List.insertionSort, List.insertionSort,
      List.orderedInsert, List.orderedInsert]
    rw [if_neg (by norm_num [byScore])]
    rfl

/-! ## Claim C8 -/

/-- C8: `clean_text` collapses all whitespace (including newlines) with
`' '.join(text.split())` before splitting on newlines, so the per-line
noise filter operates on the whole page glued into a single line: on page 2
the pure-digit line "7" of "Header\n7\nThe body of page." is not discarded
but merged into the output, and a page whose entire text is "7" is dropped
wholesale. -/
theorem C8_line_filter_eval :
    clean_text "Header\n7\nThe body of page." (some 2) =
      "Header 7 The body of page." ∧
    clean_text "7" (some 2) = "" :=
  ⟨by decide, by decide⟩

/-! ## Claim C5 -/

/-- C5: when the primary filtered search raises and the unfiltered fallback
succeeds, every candidate passed on has a `pdf_id` in the caller's accessible
set; when the fallback raises as well, the handler returns the structured
"unable to search" response rather than an exception. -/
theorem C5_fallback_scope (e e' : String) (fb : List (PyDoc × ℚ))
    (accessible : List Nat) :
    (∀ dq ∈ fb.filter (accessFilter accessible),
      ∃ i, dq.1.pdfId = some i ∧ i ∈ accessible) ∧
    retrieval_phase (Except.error e) (Except.ok fb) accessible =
      .results (fb.filter (accessFilter accessible)) ∧
    retrieval_phase (Except.error e) (Except.error e') accessible =
      .unableToSearch unableAnswer := by
  refine ⟨?_, rfl, rfl⟩
  intro dq hdq
  have h := (List.mem_filter.mp hdq).2
  rw [accessFilter] at h
  cases hpid : dq.1.pdfId with
  | some i =>
    rw [hpid] at h
    exact ⟨i, rfl, by simpa using h⟩
  | none => rw [hpid] at h; simp at h

/-- Witness: both searches failing on a concrete scope yields the structured
degraded response. -/
theorem C5_fallback_scope_witness :
    retrieval_phase (Except.error "index down") (Except.error "index down")
      [3] = .unableToSearch unableAnswer :=
  (C5_fallback_scope "index down" "index down" [] [3]).2.2

/-! ## Claim C10 -/

/-- C10: every row of the insert batch built by `process_pdf` stores the
chunk's content clamped by `storedContent`, whose output never exceeds 5000
characters and equals the first 5000 characters whenever the chunk is longer;
and the chunker itself can emit a chunk longer than 5000 characters (any
input of 5001 identical characters with `chunk_size = 6000` is returned
whole), so the clamp is what enforces the bound. -/
theorem C10_stored_content_bound :
    (∀ (pdfId : Nat) (textChunks : List ChunkRec),
      ∀ row ∈ chunk_rows pdfId textChunks,
        row.content.length ≤ 5000 ∧
        ∃ c ∈ textChunks, row.content = storedContent c.content) ∧
    (∀ s : String, 5000 < s.length → storedContent s = pyTake 5000 s) ∧
    (∃ t : String, 5000 < t.length ∧
      processor_split_text_into_chunks 6000 200 100 t = [t]) := by
  refine ⟨?_, ?_, ?_⟩
  · intro pdfId textChunks row hrow
    rw [chunk_rows] at hrow
    obtain ⟨ic, hic, hrev⟩ := List.mem_map.mp hrow
    constructor
    · rw [← hrev]
      show (storedContent ic.2.content).length ≤ 5000
      rw [storedContent]
      split
      · show (String.mk (ic.2.content.data.take 5000)).length ≤ 5000
        show (ic.2.content.data.take 5000).length ≤ 5000
        simp [List.length_take]
      · omega
    · exact ⟨ic.2, List.snd_mem_of_mem_enum hic, by rw [← hrev]⟩
  · intro s h
    rw [storedContent, if_pos h]
  · refine ⟨String.mk (List.replicate 5001 'a'), ?_, ?_⟩
    · show 5000 < (List.replicate 5001 'a').length
      rw [List.length_replicate]
      omega
    · have hlen : (String.mk (List.replicate 5001 'a')).length = 5001 := by
        show (List.replicate 5001 'a').length = 5001
        rw [List.length_replicate]
      rw [processor_split_text_into_chunks, if_pos (Or.inr (by omega)),
        if_pos (by omega)]

/-- Witness: a one-chunk batch evaluated concretely. -/
theorem C10_stored_content_bound_witness :
    (⟨7, 0, "hello", 1, "meta"⟩ : ChunkRow).content.length ≤ 5000 ∧
    ∃ c ∈ [(⟨"hello", 1, "meta"⟩ : ChunkRec)],
      (⟨7, 0, "hello", 1, "meta"⟩ : ChunkRow).content = storedContent c.content :=
  C10_stored_content_bound.1 7 [⟨"hello", 1, "meta"⟩]
    ⟨7, 0, "hello", 1, "meta"⟩ (by decide)

/-! ## Claim C1 -/

/-- C1 counterexample: with `chunk_size = 10`, `overlap = 2` and
`min_chunk_length = 5`, the input "ab\n\ncccccccccccc" makes the splitter
flush the 4-character accumulator "ab\n\n" (below the floor) before
sentence-packing the oversized paragraph: a chunk shorter than
`min_chunk_length` is emitted.  Even the final accumulator flush can dip
below the floor, because its length check precedes the strip while the
emitted chunk is stripped: on "cccccccccccc\n\nabcd" the final accumulator
"abcd\n\n" passes the check (6 > 5) but the emitted chunk "abcd" has only 4
characters. -/
theorem C1_counterexample :
    ("ab\n\n" ∈ processor_split_text_into_chunks 10 2 5 "ab\n\ncccccccccccc" ∧
      ("ab\n\n" : String).length < 5) ∧
    ("abcd" ∈ processor_split_text_into_chunks 10 2 5 "cccccccccccc\n\nabcd" ∧
      ("abcd" : String).length < 5) :=
  ⟨⟨by decide, by decide⟩, ⟨by decide, by decide⟩⟩

/-- C1 (amended): the `min_chunk_length` floor is enforced only at the base
case — an input no longer than `chunk_size` is returned whole exactly when it
is longer than `min_chunk_length`, so in particular an input shorter than the
floor yields the empty list.  It is not otherwise guaranteed: chunks flushed
mid-stream skip the check entirely, and the final flush checks the unstripped
accumulator but emits the stripped text, which can be shorter than the
floor. -/
theorem C1_short_input_empty (chunkSize chunkOverlap minChunkLength : Nat)
    (text : String) (h : text.length ≤ chunkSize) :
    processor_split_text_into_chunks chunkSize chunkOverlap minChunkLength text =
      if minChunkLength < text.length then [text] else [] := by
  rw [processor_split_text_into_chunks, if_pos (Or.inr h)]

/-- Witness: a 10-character page under the configured floor 100 yields no
chunks. -/
theorem C1_short_input_empty_witness :
    processor_split_text_into_chunks 800 200 100 "Too short." = [] :=
  (C1_short_input_empty 800 200 100 "Too short." (by decide)).trans (by decide)

/-! ## Claim C4 -/

/-- C4 counterexample: all four scores of `c4pool` exceed the cutoff 1/2, so
the fallback fires, and it returns the first three candidates in retrieval
order — scores 4, 3, 2 — not the three lowest-distance candidates 1, 2, 3. -/
theorem C4_counterexample :
    threshold_rank c4pool (1/2) ≠ (List.insertionSort byScore c4pool).take 3 := by
  have hfil : c4pool.filter (fun dq => decide (dq.2 ≤ (1/2 : ℚ))) = [] := by
    rw [List.filter_eq_nil_iff]
    intro a ha
    simp only [c4pool, List.mem_cons, List.not_mem_nil, or_false] at ha
    rcases ha with h | h | h | h <;> subst h <;> simp <;> norm_num
  have hl : threshold_rank c4pool (1/2) =
      [(mkDoc "p1", 4), (mkDoc "p2", 3), (mkDoc "p3", 2)] := by
    simp only [threshold_rank, hfil, if_pos]
    rfl
  have hsort : List.insertionSort byScore c4pool =
      [(mkDoc "p4", 1), (mkDoc "p3", 2), (mkDoc "p2", 3), (mkDoc "p1", 4)] := by
    norm_num [c4pool, List.insertionSort, List.orderedInsert, byScore]
  rw [hl, hsort]
  intro h
  have h1 := congrArg (fun l => l.head?.map Prod.fst) h
  simp only [List.head?, List.take, Option.map] at h1
  exact absurd h1 (by decide)

/-- C4 (amended): the ranking step never returns an empty list on non-empty
input, and when the threshold filter would discard every candidate it returns
the first three candidates of the retrieval list (which are the three
lowest-distance candidates only if that list arrives sorted ascending). -/
theorem C4_fallback_nonempty (results : List (PyDoc × ℚ)) (cutoff : ℚ) :
    (results ≠ [] → threshold_rank results cutoff ≠ []) ∧
    ((∀ dq ∈ results, cutoff < dq.2) →
      threshold_rank results cutoff = results.take 3) := by
  constructor
  · intro hne
    by_cases hf : results.filter (fun dq => decide (dq.2 ≤ cutoff)) = []
    · simp only [threshold_rank, hf, if_pos]
      cases results with
      | nil => exact absurd rfl hne
      | cons a l => simp
    · simp only [threshold_rank, if_neg hf]
      exact hf
  · intro hall
    have hf : results.filter (fun dq => decide (dq.2 ≤ cutoff)) = [] := by
      rw [List.filter_eq_nil_iff]
      intro a ha
      simpa using not_le_of_lt (hall a ha)
    simp only [threshold_rank, hf, if_pos]

/-- Witness: a singleton above the cutoff comes back unchanged, hence
non-empty. -/
theorem C4_fallback_nonempty_witness :
    threshold_rank [(mkDoc "w", 4)] (1/2) ≠ [] ∧
    threshold_rank [(mkDoc "w", 4)] (1/2) = [(mkDoc "w", 4)] :=
  ⟨(C4_fallback_nonempty [(mkDoc "w", 4)] (1/2)).1 (by simp),
   ((C4_fallback_nonempty [(mkDoc "w", 4)] (1/2)).2
      (by intro dq h; rw [List.mem_singleton] at h; subst h; norm_num)).trans rfl⟩

/-! ## Claim C6 -/

/-- Appending the empty string is the identity. -/
lemma str_append_empty (s : String) : s ++ "" = s := by
  cases s
  simp [String.append]

/-- Prepending the empty string is the identity. -/
lemma str_empty_append (s : String) : "" ++ s = s := by
  cases s
  simp [String.append]

/-- Length bound for a separator join: the separator contributes once per
gap between consecutive parts. -/
lemma joinSep_length_le (sep : String) (parts : List String) :
    (joinSep sep parts).length ≤
      (parts.map String.length).sum + sep.length * (parts.length - 1) := by
  induction parts with
  | nil => simp [joinSep]
  | cons s rest ih =>
    cases rest with
    | nil => simp [joinSep]
    | cons s' rest' =>
      show (s ++ sep ++ joinSep sep (s' :: rest')).length ≤ _
      rw [String.length_append, String.length_append]
      simp only [List.map, List.sum_cons, List.length_cons, Nat.add_sub_cancel] at ih ⊢
      have hmul : sep.length * (rest'.length + 1) =
          sep.length * rest'.length + sep.length := Nat.mul_succ _ _
      linarith

/-- Invariant of the `prepare_context` loop: the tracked length equals the
sum of the included block lengths and never exceeds the budget, and every
included part is a whole `blockOf` some input candidate. -/
lemma prepareContextGo_spec (maxLen : Nat) :
    ∀ (rs : List (PyDoc × ℚ)) (seen parts : List String) (curLen : Nat),
      curLen = (parts.map String.length).sum → curLen ≤ maxLen →
      ((prepareContextGo maxLen rs seen parts curLen).map String.length).sum ≤ maxLen ∧
      ∀ p ∈ prepareContextGo maxLen rs seen parts curLen,
        p ∈ parts ∨ ∃ dq ∈ rs, p = blockOf dq.1 := by
  intro rs
  induction rs with
  | nil =>
    intro seen parts curLen hsum hle
    rw [prepareContextGo]
    exact ⟨hsum ▸ hle, fun p hp => Or.inl hp⟩
  | cons dq rest ih =>
    intro seen parts curLen hsum hle
    obtain ⟨d, q⟩ := dq
    rw [prepareContextGo]
    by_cases hseen : pyTake 100 d.pageContent ∈ seen
    · rw [if_pos hseen]
      obtain ⟨h1, h2⟩ := ih seen parts curLen hsum hle
      refine ⟨h1, fun p hp => ?_⟩
      rcases h2 p hp with h | ⟨dq', hdq', hb⟩
      · exact Or.inl h
      · exact Or.inr ⟨dq', List.mem_cons_of_mem _ hdq', hb⟩
    · rw [if_neg hseen]
      by_cases hover : maxLen < curLen + (blockOf d).length
      · rw [if_pos hover]
        exact ⟨hsum ▸ hle, fun p hp => Or.inl hp⟩
      · rw [if_neg hover]
        obtain ⟨h1, h2⟩ := ih (pyTake 100 d.pageContent :: seen)
          (parts ++ [blockOf d]) (curLen + (blockOf d).length)
          (by rw [hsum]; simp) (by omega)
        refine ⟨h1, fun p hp => ?_⟩
        rcases h2 p hp with h | ⟨dq', hdq', hb⟩
        · rcases List.mem_append.mp h with h' | h'
          · exact Or.inl h'
          · exact Or.inr ⟨(d, q), List.mem_cons_self _ _, by
              rw [List.mem_singleton] at h'
              simpa using h'⟩
        · exact Or.inr ⟨dq', List.mem_cons_of_mem _ hdq', hb⟩

/-- C6 counterexample: two 22-character blocks pass the length check against
`max_length = 44`, but the returned context joins them with the 5-character
separator and is 49 characters long — longer than `max_length`. -/
theorem C6_counterexample :
    (prepare_context [(⟨"x", some "f", some "1", none⟩, 1),
      (⟨"y", some "f", some "1", none⟩, 1)] 44).length = 49 ∧ 44 < 49 :=
  ⟨by decide, by decide⟩

/-- C6 (amended): blocks are included whole and the loop stops before the
cumulative block length exceeds `max_length`, but the length accounting
ignores the `"\n---\n"` join, so the returned string is only bounded by
`max_length` plus five characters per gap between included blocks. -/
theorem C6_context_budget (results : List (PyDoc × ℚ)) (maxLen : Nat) :
    ((prepareContextGo maxLen results [] [] 0).map String.length).sum ≤ maxLen ∧
    (∀ p ∈ prepareContextGo maxLen results [] [] 0,
      ∃ dq ∈ results, p = blockOf dq.1) ∧
    (prepare_context results maxLen).length ≤
      maxLen + 5 * ((prepareContextGo maxLen results [] [] 0).length - 1) := by
  have h := prepareContextGo_spec maxLen results [] [] 0 (by simp) (Nat.zero_le _)
  refine ⟨h.1, ?_, ?_⟩
  · intro p hp
    rcases h.2 p hp with hin | hex
    · exact absurd hin (List.not_mem_nil p)
    · exact hex
  · rw [prepare_context]
    have hj := joinSep_length_le "\n---\n" (prepareContextGo maxLen results [] [] 0)
    have hsep : ("\n---\n" : String).length = 5 := rfl
    rw [hsep] at hj
    omega

/-- Witness: a singleton result list keeps its block sum within the budget. -/
theorem C6_context_budget_witness :
    ((prepareContextGo 44 [(⟨"x", some "f", some "1", none⟩, 1)] [] [] 0).map
      String.length).sum ≤ 44 :=
  (C6_context_budget [(⟨"x", some "f", some "1", none⟩, 1)] 44).1

/-! ## Claim C3 -/

/-- A and B share a non-empty common substring: some non-empty character run
occurs contiguously in both. -/
def sharesCommonSubstring (a b : String) : Prop :=
  ∃ s : List Char, s ≠ [] ∧ s <:+: a.data ∧ s <:+: b.data

/-- Two strings share a non-empty common substring exactly when they share a
character. -/
lemma sharesCommonSubstring_iff (a b : String) :
    sharesCommonSubstring a b ↔ ∃ c ∈ a.data, c ∈ b.data := by
  constructor
  · rintro ⟨s, hne, ha, hb⟩
    cases s with
    | nil => exact absurd rfl hne
    | cons c t =>
      exact ⟨c, ha.subset (List.mem_cons_self c t), hb.subset (List.mem_cons_self c t)⟩
  · rintro ⟨c, hca, hcb⟩
    obtain ⟨s1, t1, h1⟩ := List.append_of_mem hca
    obtain ⟨s2, t2, h2⟩ := List.append_of_mem hcb
    exact ⟨[c], by simp, ⟨s1, t1, by rw [h1]; simp⟩, ⟨s2, t2, by rw [h2]; simp⟩⟩

/-- Space-terminated concatenation: the shape of the seeded overlap text,
`s₁ ++ " " ++ s₂ ++ " " ++ … ++ " "`. -/
def catSpaced : List String → String
  | [] => ""
  | s :: rest => s ++ " " ++ catSpaced rest

/-- `catSpaced` over a snoc. -/
lemma catSpaced_append_singleton (xs : List String) (y : String) :
    catSpaced (xs ++ [y]) = catSpaced xs ++ (y ++ " ") := by
  induction xs with
  | nil =>
    show y ++ " " ++ catSpaced [] = "" ++ (y ++ " ")
    rw [str_empty_append]
    show y ++ " " ++ "" = y ++ " "
    rw [str_append_empty]
  | cons x xs ih =>
    show x ++ " " ++ catSpaced (xs ++ [y]) = x ++ " " ++ catSpaced xs ++ (y ++ " ")
    rw [ih]
    simp [String.append_assoc]

/-- The overlap accumulation never grows past the budget plus the one
trailing space appended with the last accepted sentence. -/
lemma overlapTextGo_len (budget : Nat) :
    ∀ (l : List String) (acc : String), acc.length ≤ budget + 1 →
      (overlapTextGo budget l acc).length ≤ budget + 1 := by
  intro l
  induction l with
  | nil => intro acc h; exact h
  | cons s rest ih =>
    intro acc h
    rw [overlapTextGo]
    by_cases hfit : acc.length + s.length ≤ budget
    · rw [if_pos hfit]
      refine ih _ ?_
      rw [String.length_append, String.length_append]
      have : (" " : String).length = 1 := rfl
      omega
    · rw [if_neg hfit]
      exact h

/-- The overlap accumulation returns a space-joined reversed prefix of its
input prepended to the accumulator. -/
lemma overlapTextGo_struct (budget : Nat) :
    ∀ (l : List String) (acc : String), ∃ t, t <+: l ∧
      overlapTextGo budget l acc = catSpaced t.reverse ++ acc := by
  intro l
  induction l with
  | nil =>
    intro acc
    exact ⟨[], List.nil_prefix, (str_empty_append acc).symm⟩
  | cons s rest ih =>
    intro acc
    rw [overlapTextGo]
    by_cases hfit : acc.length + s.length ≤ budget
    · rw [if_pos hfit]
      obtain ⟨t, ht, heq⟩ := ih (s ++ " " ++ acc)
      refine ⟨s :: t, List.cons_prefix_cons.mpr ⟨rfl, ht⟩, ?_⟩
      rw [heq, List.reverse_cons, catSpaced_append_singleton]
      simp [String.append_assoc]
    · rw [if_neg hfit]
      exact ⟨[], List.nil_prefix, (str_empty_append acc).symm⟩

/-- C3 counterexample: splitting "Aaaa.\n\nBbbb!" with `chunk_size = 10`,
`overlap = 2`, `min_chunk_length = 2` produces the consecutive
paragraph-boundary chunks "Aaaa." and "Bbbb!", which share no common
substring (the previous chunk's only sentence exceeds the overlap budget, so
the seeded prefix is empty); and with budget 3 a single 3-character sentence
"ab." seeds the 4-character prefix "ab. ", exceeding the stated budget. -/
theorem C3_counterexample :
    processor_split_text_into_chunks 10 2 2 "Aaaa.\n\nBbbb!" = ["Aaaa.", "Bbbb!"] ∧
    ¬ sharesCommonSubstring "Aaaa." "Bbbb!" ∧
    overlap_text 3 ["ab."] = "ab. " ∧ 3 < (overlap_text 3 ["ab."]).length := by
  refine ⟨by decide, ?_, by decide, by decide⟩
  rw [sharesCommonSubstring_iff]
  decide

/-- C3 (amended): the prefix seeded at a paragraph-driven boundary is the
space-join of a suffix of the just-flushed chunk's sentences — so a non-empty
prefix consists of text of the previous chunk — sentences are accepted
backward only while the prefix stays within the budget, and the prefix length
is bounded by `overlap + 1` (the budget plus one trailing space), not by
`overlap` itself; the prefix may be empty, in which case nothing is shared. -/
theorem C3_overlap_amended (budget : Nat) (sentences : List String) :
    (overlap_text budget sentences).length ≤ budget + 1 ∧
    ∃ u, u <:+ sentences ∧ overlap_text budget sentences = catSpaced u ∧
      (overlap_text budget sentences ≠ "" → u ≠ []) := by
  constructor
  · exact overlapTextGo_len budget sentences.reverse "" (by simp)
  · obtain ⟨t, ht, heq⟩ := overlapTextGo_struct budget sentences.reverse ""
    refine ⟨t.reverse, ?_, ?_, ?_⟩
    · have := List.reverse_suffix.mpr ht
      rwa [List.reverse_reverse] at this
    · rw [overlap_text, heq, str_append_empty]
    · intro hne habs
      rw [overlap_text, heq, str_append_empty] at hne
      rw [habs] at hne
      exact hne rfl

/-- Witness: two short sentences against budget 3 keep the prefix within
four characters. -/
theorem C3_overlap_amended_witness :
    (overlap_text 3 ["Hi.", "Yo."]).length ≤ 3 + 1 :=
  (C3_overlap_amended 3 ["Hi.", "Yo."]).1

/-! ## Claim C7 -/

/-- The backward overlap walk returns a reversed prefix of its (reversed)
input prepended to the accumulator. -/
lemma overlapSentGo_struct (overlap : Nat) :
    ∀ (l : List String) (size : Nat) (acc : List String),
      ∃ t, t <+: l ∧ overlapSentGo overlap l size acc = t.reverse ++ acc := by
  intro l
  induction l with
  | nil => intro size acc; exact ⟨[], List.nil_prefix, rfl⟩
  | cons s rest ih =>
    intro size acc
    rw [overlapSentGo]
    by_cases hstop : overlap ≤ size + s.length
    · rw [if_pos hstop]
      exact ⟨[s], ⟨rest, rfl⟩, rfl⟩
    · rw [if_neg hstop]
      obtain ⟨t, ht, heq⟩ := ih (size + s.length) (s :: acc)
      refine ⟨s :: t, List.cons_prefix_cons.mpr ⟨rfl, ht⟩, ?_⟩
      rw [heq, List.reverse_cons, List.append_assoc]
      rfl

/-- The seeded overlap sentence list is a suffix of the flushed accumulator. -/
lemma overlap_sentences_suffix (overlap : Nat) (cur : List String) :
    overlap_sentences overlap cur <:+ cur := by
  obtain ⟨t, ht, heq⟩ := overlapSentGo_struct overlap cur.reverse 0 []
  rw [overlap_sentences, heq, List.append_nil]
  have h := List.reverse_suffix.mpr ht
  rwa [List.reverse_reverse] at h

/-- Invariant of the `split_text_into_chunks` loop: provided the accumulator
is a suffix of the sentences already consumed and every flushed chunk is a
space-join of a non-empty contiguous sentence run, the same holds of every
chunk in the final output. -/
lemma splitChunksGo_runs (chunkSize overlap : Nat) (sents : List String) :
    ∀ (rest : List String) (cur : List String) (size : Nat)
      (chunks : List String) (done : List String),
      sents = done ++ rest → cur <:+ done →
      (∀ ch ∈ chunks, ∃ run, run ≠ [] ∧ run <:+: sents ∧ ch = joinSep " " run) →
      ∀ ch ∈ splitChunksGo chunkSize overlap rest cur size chunks,
        ∃ run, run ≠ [] ∧ run <:+: sents ∧ ch = joinSep " " run := by
  intro rest
  induction rest with
  | nil =>
    intro cur size chunks done hsents hcur hch
    rw [splitChunksGo]
    by_cases hc : cur = []
    · rw [if_pos hc]; exact hch
    · rw [if_neg hc]
      intro ch hmem
      rcases List.mem_append.mp hmem with h | h
      · exact hch ch h
      · rw [List.mem_singleton] at h
        rw [List.append_nil] at hsents
        exact ⟨cur, hc, hsents ▸ List.IsSuffix.isInfix hcur, h⟩
  | cons s rest' ih =>
    intro cur size chunks done hsents hcur hch
    have hdone : sents = (done ++ [s]) ++ rest' := by rw [hsents]; simp
    simp only [splitChunksGo]
    by_cases hcond : chunkSize < size + s.length ∧ cur ≠ []
    · rw [if_pos hcond]
      refine ih (overlap_sentences overlap cur ++ [s]) _ _ (done ++ [s]) hdone ?_ ?_
      · obtain ⟨p, hp⟩ := (overlap_sentences_suffix overlap cur).trans hcur
        exact ⟨p, by rw [← List.append_assoc, hp]⟩
      · intro ch hmem
        rcases List.mem_append.mp hmem with h | h
        · exact hch ch h
        · rw [List.mem_singleton] at h
          refine ⟨cur, hcond.2, ?_, h⟩
          have hpre : done <+: sents := ⟨s :: rest', hsents.symm⟩
          exact List.IsInfix.trans (List.IsSuffix.isInfix hcur) (List.IsPrefix.isInfix hpre)
    · rw [if_neg hcond]
      refine ih (cur ++ [s]) _ _ (done ++ [s]) hdone ?_ hch
      obtain ⟨p, hp⟩ := hcur
      exact ⟨p, by rw [← List.append_assoc, hp]⟩

/-- C7 counterexample: with `chunk_size = 10` and all sentences of length 3,
the splitter emits the 11-character chunk "ab. ab. ab." — its size accounting
does not count the joining spaces, so a chunk exceeds `chunk_size` although
no single sentence does. -/
theorem C7_counterexample :
    split_text_into_chunks "ab. ab. ab. ab." 10 2 = ["ab. ab. ab.", "ab. ab."] ∧
    10 < ("ab. ab. ab." : String).length ∧
    ∀ s ∈ pySentences "ab. ab. ab. ab.", s.length ≤ 10 :=
  ⟨by decide, by decide, by decide⟩

/-- C7 (amended): the splitter never splits a sentence (hence never a word):
every emitted chunk is the space-join of a non-empty run of consecutive
sentences of the input; the `chunk_size` bound itself fails, since the
tracked size omits the joining spaces and the re-seeded overlap, so a chunk
can exceed `chunk_size` even when every sentence fits. -/
theorem C7_sentence_runs (text : String) (chunkSize overlap : Nat) :
    ∀ ch ∈ split_text_into_chunks text chunkSize overlap,
      ∃ run : List String, run ≠ [] ∧ run <:+: pySentences text ∧
        ch = joinSep " " run := by
  intro ch hch
  rw [split_text_into_chunks] at hch
  by_cases ht : text = ""
  · rw [if_pos ht] at hch
    exact absurd hch (List.not_mem_nil ch)
  · rw [if_neg ht] at hch
    exact splitChunksGo_runs chunkSize overlap (pySentences text)
      (pySentences text) [] 0 [] [] (by simp) List.nil_suffix
      (fun ch h => absurd h (List.not_mem_nil ch)) ch hch

/-- Witness: the single chunk made of "Hi. Bye." is the join of a run of its
sentences. -/
theorem C7_sentence_runs_witness :
    ∃ run : List String, run ≠ [] ∧ run <:+: pySentences "Hi. Bye." ∧
      "Hi. Bye." = joinSep " " run :=
  C7_sentence_runs "Hi. Bye." 100 10 "Hi. Bye." (by decide)

/-! ## Claim C9 -/

instance : IsTotal (PyDoc × ℚ) byScore := ⟨fun a b => le_total a.2 b.2⟩

instance : IsTrans (PyDoc × ℚ) byScore := ⟨fun _ _ _ hab hbc => le_trans hab hbc⟩

/-- Membership after a dict upsert: each entry either was already present or
is the inserted pair. -/
lemma mem_upsertMin (k : String) (v : PyDoc × ℚ) :
    ∀ (m : List (String × (PyDoc × ℚ))), ∀ kv ∈ upsertMin k v m,
      kv ∈ m ∨ kv = (k, v) := by
  intro m
  induction m with
  | nil =>
    intro kv hkv
    rw [upsertMin, List.mem_singleton] at hkv
    exact Or.inr hkv
  | cons e rest ih =>
    intro kv hkv
    obtain ⟨k', v'⟩ := e
    rw [upsertMin] at hkv
    by_cases hk : k = k'
    · rw [if_pos hk] at hkv
      by_cases hv : v.2 < v'.2
      · rw [if_pos hv] at hkv
        rcases List.mem_cons.mp hkv with h | h
        · exact Or.inr h
        · exact Or.inl (List.mem_cons_of_mem _ h)
      · rw [if_neg hv] at hkv
        exact Or.inl hkv
    · rw [if_neg hk] at hkv
      rcases List.mem_cons.mp hkv with h | h
      · exact Or.inl (h ▸ List.mem_cons_self _ _)
      · rcases ih kv h with h' | h'
        · exact Or.inl (List.mem_cons_of_mem _ h')
        · exact Or.inr h'

/-- Key list after an upsert: unchanged when the key is present, the key
appended at the end when absent. -/
lemma keys_upsertMin (k : String) (v : PyDoc × ℚ) :
    ∀ (m : List (String × (PyDoc × ℚ))),
      (upsertMin k v m).map Prod.fst =
        if k ∈ m.map Prod.fst then m.map Prod.fst
        else m.map Prod.fst ++ [k] := by
  intro m
  induction m with
  | nil => simp [upsertMin]
  | cons e rest ih =>
    obtain ⟨k', v'⟩ := e
    rw [upsertMin]
    by_cases hk : k = k'
    · rw [if_pos hk]
      have hmem : k ∈ ((k', v') :: rest).map Prod.fst := by simp [hk]
      rw [if_pos hmem]
      by_cases hv : v.2 < v'.2
      · rw [if_pos hv]
        simp [hk]
      · rw [if_neg hv]
    · rw [if_neg hk]
      show ((k', v') :: upsertMin k v rest).map Prod.fst = _
      rw [List.map_cons, ih]
      by_cases hmem : k ∈ rest.map Prod.fst
      · rw [if_pos hmem, if_pos (by simp [hmem])]
        rfl
      · rw [if_neg hmem, if_neg (by simp [hk, hmem]), List.map_cons]
        simp

/-- An upsert keeps the keys distinct. -/
lemma nodup_keys_upsertMin (k : String) (v : PyDoc × ℚ)
    (m : List (String × (PyDoc × ℚ))) (h : (m.map Prod.fst).Nodup) :
    ((upsertMin k v m).map Prod.fst).Nodup := by
  rw [keys_upsertMin]
  by_cases hmem : k ∈ m.map Prod.fst
  · rw [if_pos hmem]; exact h
  · rw [if_neg hmem]
    exact h.append (List.nodup_singleton k) (by simp [List.disjoint_singleton, hmem])

/-- If an entry with the upserted key survives the upsert (keys distinct),
the inserted score did not beat it. -/
lemma upsertMin_kept_le (k : String) (v : PyDoc × ℚ) :
    ∀ (m : List (String × (PyDoc × ℚ))), (m.map Prod.fst).Nodup →
      ∀ kv ∈ m, kv.1 = k → kv ∈ upsertMin k v m → ¬ v.2 < kv.2.2 := by
  intro m
  induction m with
  | nil =>
    intro _ kv hkv
    exact absurd hkv (List.not_mem_nil kv)
  | cons e rest ih =>
    intro hnd kv hkv hk1 hkv'
    obtain ⟨k', v'⟩ := e
    rw [List.map_cons, List.nodup_cons] at hnd
    rw [upsertMin] at hkv'
    by_cases hk : k = k'
    · rw [if_pos hk] at hkv'
      rcases List.mem_cons.mp hkv with hkvh | hkvt
      · by_cases hv : v.2 < v'.2
        · rw [if_pos hv] at hkv'
          rcases List.mem_cons.mp hkv' with h | h
          · rw [hkvh] at h
            have hvv : v' = v := congrArg Prod.snd h
            rw [hvv] at hv
            exact absurd hv (lt_irrefl _)
          · exfalso
            apply hnd.1
            have : kv.1 ∈ rest.map Prod.fst := List.mem_map_of_mem Prod.fst h
            rw [hkvh] at this
            exact this
        · rw [if_neg hv] at hkv'
          rw [hkvh]
          exact hv
      · exfalso
        apply hnd.1
        have : kv.1 ∈ rest.map Prod.fst := List.mem_map_of_mem Prod.fst hkvt
        rw [hk1, hk] at this
        exact this
    · rw [if_neg hk] at hkv'
      rcases List.mem_cons.mp hkv with hkvh | hkvt
      · exact absurd (by rw [← hk1, hkvh]) hk
      · rcases List.mem_cons.mp hkv' with h | h
        · exact absurd (by rw [← hk1, h]) hk
        · exact ih hnd.2 kv hkvt hk1 h

/-- If the inserted pair is genuinely new in the dict after the upsert, it
strictly beat every existing entry with its key. -/
lemma upsertMin_new_lt (k : String) (v : PyDoc × ℚ) :
    ∀ (m : List (String × (PyDoc × ℚ))), (m.map Prod.fst).Nodup →
      (k, v) ∉ m → (k, v) ∈ upsertMin k v m →
      ∀ e ∈ m, e.1 = k → v.2 < e.2.2 := by
  intro m
  induction m with
  | nil =>
    intro _ _ _ e he
    exact absurd he (List.not_mem_nil e)
  | cons e0 rest ih =>
    intro hnd hnotin hkv e he hek
    obtain ⟨k', v'⟩ := e0
    rw [List.map_cons, List.nodup_cons] at hnd
    rw [upsertMin] at hkv
    by_cases hk : k = k'
    · rw [if_pos hk] at hkv
      rcases List.mem_cons.mp he with heh | het
      · by_cases hv : v.2 < v'.2
        · rw [heh]
          exact hv
        · rw [if_neg hv] at hkv
          exact absurd hkv hnotin
      · exfalso
        apply hnd.1
        have : e.1 ∈ rest.map Prod.fst := List.mem_map_of_mem Prod.fst het
        rw [hek, hk] at this
        exact this
    · rw [if_neg hk] at hkv
      rcases List.mem_cons.mp he with heh | het
      · exact absurd (by rw [← hek, heh]) hk
      · rcases List.mem_cons.mp hkv with h | h
        · exact absurd (congrArg Prod.fst h) hk
        · exact ih hnd.2 (fun hc => hnotin (List.mem_cons_of_mem _ hc)) h e het hek

/-- Full dict invariant of the dedup fold of `advanced_query`: every entry is
keyed by its candidate's fingerprint and holds a candidate from the processed
pool whose score is minimal among processed candidates with that fingerprint;
every processed fingerprint is represented; keys are distinct. -/
lemma dedupFold_spec :
    ∀ (rest : List (PyDoc × ℚ)) (m : List (String × (PyDoc × ℚ)))
      (done : List (PyDoc × ℚ)),
      (∀ kv ∈ m, kv.1 = fingerprint kv.2.1 ∧ kv.2 ∈ done ∧
        ∀ dq ∈ done, fingerprint dq.1 = kv.1 → kv.2.2 ≤ dq.2) →
      (∀ dq ∈ done, ∃ kv ∈ m, kv.1 = fingerprint dq.1) →
      (m.map Prod.fst).Nodup →
      (∀ kv ∈ rest.foldl (fun m ds => upsertMin (fingerprint ds.1) ds m) m,
        kv.1 = fingerprint kv.2.1 ∧ kv.2 ∈ done ++ rest ∧
        ∀ dq ∈ done ++ rest, fingerprint dq.1 = kv.1 → kv.2.2 ≤ dq.2) ∧
      (∀ dq ∈ done ++ rest,
        ∃ kv ∈ rest.foldl (fun m ds => upsertMin (fingerprint ds.1) ds m) m,
          kv.1 = fingerprint dq.1) ∧
      ((rest.foldl (fun m ds => upsertMin (fingerprint ds.1) ds m) m).map
        Prod.fst).Nodup := by
  intro rest
  induction rest with
  | nil =>
    intro m done hA hB hnd
    simp only [List.foldl_nil, List.append_nil]
    exact ⟨hA, hB, hnd⟩
  | cons ds rest' ih =>
    intro m done hA hB hnd
    simp only [List.foldl_cons]
    have hA' : ∀ kv ∈ upsertMin (fingerprint ds.1) ds m,
        kv.1 = fingerprint kv.2.1 ∧ kv.2 ∈ done ++ [ds] ∧
        ∀ dq ∈ done ++ [ds], fingerprint dq.1 = kv.1 → kv.2.2 ≤ dq.2 := by
      intro kv hkv
      rcases mem_upsertMin (fingerprint ds.1) ds m kv hkv with hin | hnew
      · obtain ⟨h1, h2, h3⟩ := hA kv hin
        refine ⟨h1, List.mem_append_left _ h2, ?_⟩
        intro dq hdq hfp
        rcases List.mem_append.mp hdq with hdq | hdq
        · exact h3 dq hdq hfp
        · rw [List.mem_singleton] at hdq
          rw [hdq] at hfp ⊢
          exact le_of_not_lt
            (upsertMin_kept_le (fingerprint ds.1) ds m hnd kv hin hfp.symm hkv)
      · subst hnew
        refine ⟨rfl, List.mem_append_right _ (List.mem_singleton_self _), ?_⟩
        intro dq hdq hfp
        rcases List.mem_append.mp hdq with hdq | hdq
        · by_cases hin : (fingerprint ds.1, ds) ∈ m
          · exact (hA _ hin).2.2 dq hdq hfp
          · obtain ⟨kv0, hkv0, hkv0k⟩ := hB dq hdq
            have hlt := upsertMin_new_lt (fingerprint ds.1) ds m hnd hin hkv
              kv0 hkv0 (by rw [hkv0k, hfp])
            have hle := (hA kv0 hkv0).2.2 dq hdq hkv0k.symm
            exact le_of_lt (lt_of_lt_of_le hlt hle)
        · rw [List.mem_singleton] at hdq
          rw [hdq]
    have hB' : ∀ dq ∈ done ++ [ds],
        ∃ kv ∈ upsertMin (fingerprint ds.1) ds m, kv.1 = fingerprint dq.1 := by
      intro dq hdq
      rcases List.mem_append.mp hdq with hdq | hdq
      · obtain ⟨kv, hkv, hk⟩ := hB dq hdq
        have hkeys : kv.1 ∈ (upsertMin (fingerprint ds.1) ds m).map Prod.fst := by
          rw [keys_upsertMin]
          by_cases hmem : fingerprint ds.1 ∈ m.map Prod.fst
          · rw [if_pos hmem]
            exact List.mem_map_of_mem _ hkv
          · rw [if_neg hmem]
            exact List.mem_append_left _ (List.mem_map_of_mem _ hkv)
        obtain ⟨kv', hkv', hkveq⟩ := List.mem_map.mp hkeys
        exact ⟨kv', hkv', by rw [hkveq, hk]⟩
      · rw [List.mem_singleton] at hdq
        have hkeys : fingerprint ds.1 ∈
            (upsertMin (fingerprint ds.1) ds m).map Prod.fst := by
          rw [keys_upsertMin]
          by_cases hmem : fingerprint ds.1 ∈ m.map Prod.fst
          · rw [if_pos hmem]; exact hmem
          · rw [if_neg hmem]
            exact List.mem_append_right _ (by simp)
        obtain ⟨kv', hkv', hkveq⟩ := List.mem_map.mp hkeys
        exact ⟨kv', hkv', by rw [hkveq, hdq]⟩
    have hnd' := nodup_keys_upsertMin (fingerprint ds.1) ds m hnd
    have hres := ih (upsertMin (fingerprint ds.1) ds m) (done ++ [ds]) hA' hB' hnd'
    rw [List.append_assoc] at hres
    exact hres

/-- The two scenario candidates with colliding fingerprints: identical chunk
text (hence identical 200-character prefix) on different pages. -/
def c9docA : PyDoc := ⟨"same same", none, some "1", none⟩

/-- The colliding candidate with the worse distance. -/
def c9docB : PyDoc := ⟨"same same", none, some "2", none⟩

/-- Scenario pool: colliding fingerprints with distances 3/10 and 5/10. -/
def c9scenario : List (PyDoc × ℚ) := [(c9docA, 3/10), (c9docB, 5/10)]

/-- Nine candidates with pairwise distinct fingerprints. -/
def c9pool : List (PyDoc × ℚ) :=
  [(mkDoc "c1", 1), (mkDoc "c2", 2), (mkDoc "c3", 3), (mkDoc "c4", 4),
   (mkDoc "c5", 5), (mkDoc "c6", 6), (mkDoc "c7", 7), (mkDoc "c8", 8),
   (mkDoc "c9", 9)]

/-- C9 counterexample: a pool with nine distinct fingerprints has nine
dedup survivors, but `advanced_query` returns only the first
`RETRIEVAL_K = 8` of them — the ranking step does not return all survivors. -/
theorem C9_counterexample :
    (dedupPool c9pool).length = 9 ∧ (advanced_rank c9pool).length = 8 := by
  have h9 : (dedupPool c9pool).length = 9 := by decide
  refine ⟨h9, ?_⟩
  rw [advanced_rank, List.length_take,
    (List.perm_insertionSort byScore _).length_eq, List.length_map, h9]
  decide

/-- C9 (amended): the dedup keeps, for each fingerprint, a candidate of
minimal score among the pool's candidates with that fingerprint (the first
such on ties), represents every pooled fingerprint exactly once, and the
ranking step returns those survivors sorted ascending by score and truncated
to the first `RETRIEVAL_K = 8`; in particular the colliding 3/10-5/10
scenario merges to the single entry with distance 3/10. -/
theorem C9_dedup_rank (pool : List (PyDoc × ℚ)) :
    (∀ kv ∈ dedupPool pool, kv.1 = fingerprint kv.2.1 ∧ kv.2 ∈ pool ∧
      ∀ dq ∈ pool, fingerprint dq.1 = kv.1 → kv.2.2 ≤ dq.2) ∧
    (∀ dq ∈ pool, ∃ kv ∈ dedupPool pool, kv.1 = fingerprint dq.1) ∧
    ((dedupPool pool).map Prod.fst).Nodup ∧
    advanced_rank pool =
      (List.insertionSort byScore ((dedupPool pool).map Prod.snd)).take
        RETRIEVAL_K ∧
    List.Sorted byScore (advanced_rank pool) ∧
    advanced_rank c9scenario = [(c9docA, 3/10)] := by
  have h := dedupFold_spec pool [] []
    (fun kv hkv => absurd hkv (List.not_mem_nil kv))
    (fun dq hdq => absurd hdq (List.not_mem_nil dq)) List.nodup_nil
  simp only [List.nil_append] at h
  refine ⟨h.1, h.2.1, h.2.2, rfl, ?_, ?_⟩
  · rw [advanced_rank]
    exact List.Pairwise.sublist (List.take_sublist _ _)
      (List.sorted_insertionSort byScore _)
  · have hfp : fingerprint c9docB = fingerprint c9docA := by decide
    have h1 : dedupPool c9scenario = [(fingerprint c9docA, (c9docA, 3/10))] := by
      rw [dedupPool]
      simp only [List.foldl]
      rw [upsertMin, upsertMin, if_pos hfp, if_neg (by norm_num)]
    rw [advanced_rank, h1]
    rfl

/-- Witness: the colliding fingerprint of the scenario pool is represented
among the dedup survivors. -/
theorem C9_dedup_rank_witness :
    ∃ kv ∈ dedupPool c9scenario, kv.1 = fingerprint c9docA :=
  (C9_dedup_rank c9scenario).2.1 (c9docA, 3/10) (List.mem_cons_self _ _)

